import Mathlib

/-!
Shallow embedding of the Workman playground's tree-synchronization layer:
the flat node cache and cycle-safe resolver, cursor-to-node mapping,
formatter diff alignment, lexer bracket-mate post-processing, the compile
debounce, the compile orchestration state updates, and the compiler API
result shaping.  Each definition is translated from the TypeScript source
(`src/App.tsx`, `src/lib/api.ts`, `src/components/LexerView.tsx`).
-/

/-- Byte-offset range `{ start, end }` into the source text.  The source
field `end` is embedded as `stop` because `end` is reserved in Lean. -/
structure Span where
  start : Nat
  stop : Nat
deriving DecidableEq, Repr

/-- One entry of a `FlatNode`'s `children` array: `{ field, id }`. -/
structure ChildRef where
  field : String
  id : Nat
deriving DecidableEq, Repr

/-- Wire-form flat node `{ id, kind, span, children }` (the `preview` and
`line`/`col` decorations carry no behaviour and are omitted).  `span` is
optional because `resolveNode`'s consumers guard on `node.span`. -/
structure FlatNode where
  id : Nat
  kind : String
  span : Option Span
  children : List ChildRef
deriving DecidableEq, Repr

/-- The per-tree node cache `Map<number, FlatNode>`, built by repeated
`cache.set(id, node)` in entry order.  Embedded as an association list in
insertion order; lookup returns the value of the LAST binding of a key,
matching JavaScript `Map.set` overwrite semantics. -/
abbrev Cache := List (Nat × FlatNode)

/-- `cache.get(id)`: the last binding of `id`, if any. -/
def cacheLookup (cache : Cache) (id : Nat) : Option FlatNode :=
  (cache.reverse.find? (fun p => p.1 == id)).map Prod.snd

/-- The keys of the cache, with multiplicity. -/
def cacheKeys (cache : Cache) : List Nat := cache.map Prod.fst

/-- Output of resolution: a `FlatNode` with `children` replaced by resolved
child nodes, each child additionally carrying `fieldName` (the edge label
spread in by the parent: `{...resolvedChild, fieldName: child.field}`). -/
inductive ResolvedNode : Type where
  | mk (id : Nat) (kind : String) (fieldName : Option String)
      (span : Option Span) (children : List ResolvedNode)

def ResolvedNode.id : ResolvedNode → Nat
  | .mk i _ _ _ _ => i

def ResolvedNode.kind : ResolvedNode → String
  | .mk _ k _ _ _ => k

def ResolvedNode.fieldName : ResolvedNode → Option String
  | .mk _ _ f _ _ => f

def ResolvedNode.span : ResolvedNode → Option Span
  | .mk _ _ _ s _ => s

def ResolvedNode.children : ResolvedNode → List ResolvedNode
  | .mk _ _ _ _ cs => cs

/-- `{...resolvedChild, fieldName: child.field}`. -/
def ResolvedNode.withField (f : String) : ResolvedNode → ResolvedNode
  | .mk i k _ s cs => .mk i k (some f) s cs

/-- The `node.children.map(...).filter(Boolean)` loop of `resolveNode`,
abstracted over the recursive call `recf` (which already closes over the
cache and the current fuel).  The JavaScript `visited` set is a single
mutable object shared by the whole traversal, so it is threaded
left-to-right through the children in encounter order. -/
def resolveChildrenAux (recf : Nat → Finset Nat → Option (Option ResolvedNode × Finset Nat)) :
    List ChildRef → Finset Nat → Option (List ResolvedNode × Finset Nat)
  | [], visited => some ([], visited)
  | c :: rest, visited =>
    match recf c.id visited with
    | none => none
    | some (r, v1) =>
      match resolveChildrenAux recf rest v1 with
      | none => none
      | some (tail, v2) =>
        match r with
        | none => some (tail, v2)
        | some rn => some (rn.withField c.field :: tail, v2)

/-- Fuelled embedding of `resolveNode(nodeId, cache, visited)`
(`src/App.tsx`).  The outer `Option` is `none` exactly when the fuel runs
out; the inner pair is (the JavaScript return value, the visited set after
the call).  Mirrors the source: a visited id returns `null` at once; the
id is added to `visited` BEFORE the cache lookup; a missing id returns
`null`; otherwise the children are resolved in order through the shared
visited set, dropped when `null`, and each kept child gets `fieldName`. -/
def resolveNodeF : Nat → Cache → Nat → Finset Nat → Option (Option ResolvedNode × Finset Nat)
  | 0, _, _, _ => none
  | fuel + 1, cache, nodeId, visited =>
    if nodeId ∈ visited then some (none, visited)
    else
      let v1 : Finset Nat := insert nodeId visited
      match cacheLookup cache nodeId with
      | none => some (none, v1)
      | some node =>
        match resolveChildrenAux (fun i v => resolveNodeF fuel cache i v) node.children v1 with
        | none => none
        | some (kids, v2) =>
          some (some (.mk node.id node.kind none node.span kids), v2)

/-- Number of cache keys not yet visited: the quantity that strictly
shrinks whenever `resolveNode` actually recurses into a node's children. -/
def unvisitedCount (cache : Cache) (visited : Finset Nat) : Nat :=
  ((cacheKeys cache).toFinset \ visited).card

/-- Top-level `resolveNode(nodeId, cache)` with the default fresh
`visited = new Set()`.  Fuel `cache.length + 1` is proven sufficient
(`resolveNodeF_isSome_of_fuel`), so the `.getD` default is never used. -/
def resolveNode (cache : Cache) (nodeId : Nat) : Option ResolvedNode :=
  ((resolveNodeF (cache.length + 1) cache nodeId ∅).map Prod.fst).getD none

/-- All node ids occurring in a resolved tree, in preorder. -/
def ResolvedNode.ids : ResolvedNode → List Nat
  | .mk i _ _ _ cs => i :: (cs.attach.map (fun c => ResolvedNode.ids c.1)).flatten
decreasing_by
  have := List.sizeOf_lt_of_mem c.2
  simp only [ResolvedNode.mk.sizeOf_spec]
  omega

/-- A cache is well-formed when every stored node's `id` field is the key
it is stored under — the shape `handleCompile` builds from the wire form
`nodes: { [id]: node }`, where the object key IS the node id. -/
abbrev CacheWF (cache : Cache) : Prop := ∀ p ∈ cache, (p.2 : FlatNode).id = p.1

/-- `node.span && node.span.start <= offset && offset <= node.span.end`:
closed-interval span containment, false for a span-less node. -/
def spanContainsB (s : Option Span) (offset : Nat) : Bool :=
  match s with
  | none => false
  | some sp => decide (sp.start ≤ offset) && decide (offset ≤ sp.stop)

mutual

/-- Embedding of `findNodeAtPosition(node, offset)` (`src/App.tsx`): if the
node's own span does not contain the offset (closed interval both ends),
return `null`; otherwise scan the children in order and return the first
child match, falling back to the node itself. -/
def findNodeAtPosition : ResolvedNode → Nat → Option ResolvedNode
  | .mk i k f s cs, offset =>
    if spanContainsB s offset then
      match findFirstChild cs offset with
      | some m => some m
      | none => some (.mk i k f s cs)
    else none

/-- The `for (const child of node.children)` loop: first non-null result. -/
def findFirstChild : List ResolvedNode → Nat → Option ResolvedNode
  | [], _ => none
  | c :: rest, offset =>
    match findNodeAtPosition c offset with
    | some m => some m
    | none => findFirstChild rest offset

end

/-! ### Formatter diff alignment (`computeInsertedSpans`, `src/App.tsx`) -/

/-- A compiler token as `computeInsertedSpans` consumes it: `kind`, an
optional `text`, and an optional `span` (the code guards on `f.span`). -/
structure Tok where
  kind : String
  text : Option String
  span : Option Span
deriving DecidableEq, Repr

/-- `normalizeToken`: the compared `(kind, text)` pair, as the source's
string `` `${tok.kind}:${tok.text ?? ""}` ``. -/
def normalizeToken (t : Tok) : String :=
  t.kind ++ ":" ++ t.text.getD ""

/-- `isIgnorableToken`: line comments and end-of-input markers. -/
def isIgnorableToken (t : Tok) : Bool :=
  t.kind == "LineComment" || t.kind == "EOF"

/-- An element of the `spans` output array of `computeInsertedSpans`. -/
structure HSpan where
  start : Nat
  stop : Nat
  className : String
deriving DecidableEq, Repr

/-- The `for (let j = ...)` loop of `computeInsertedSpans`: walk the
formatted tokens with a single cursor into the (filtered) original
sequence; advance the cursor on a `(kind, text)` match, otherwise record
the formatted token's span when it satisfies the predicate and has a
span. -/
def insertedLoop (pred : Tok → Bool) (cls : String) :
    List Tok → List Tok → List HSpan
  | _, [] => []
  | source, f :: rest =>
    match source with
    | s :: srest =>
      if normalizeToken s == normalizeToken f then insertedLoop pred cls srest rest
      else
        match pred f, f.span with
        | true, some sp => ⟨sp.start, sp.stop, cls⟩ :: insertedLoop pred cls source rest
        | _, _ => insertedLoop pred cls source rest
    | [] =>
      match pred f, f.span with
      | true, some sp => ⟨sp.start, sp.stop, cls⟩ :: insertedLoop pred cls [] rest
      | _, _ => insertedLoop pred cls [] rest

/-- `computeInsertedSpans(sourceTokens, formattedTokens, shouldHighlight,
className)`: both sequences first drop ignorable tokens (`?? []` on an
absent array), then the greedy one-cursor alignment runs. -/
def computeInsertedSpans (sourceTokens formattedTokens : Option (List Tok))
    (shouldHighlight : Tok → Bool) (className : String) : List HSpan :=
  insertedLoop shouldHighlight className
    ((sourceTokens.getD []).filter (fun t => !isIgnorableToken t))
    ((formattedTokens.getD []).filter (fun t => !isIgnorableToken t))

/-! ### LexerView bracket-mate post-processing (`src/components/LexerView.tsx`) -/

/-- A token as `LexerView` sees it: `kind`, `span` (always present there),
optional `text`, and the optional `mate` byte offset. -/
structure LToken where
  kind : String
  start : Nat
  stop : Nat
  text : Option String
  mate : Option Nat
deriving DecidableEq, Repr

/-- The `positionToIndex` map over a list of (index, token) pairs: built by
`Map.set(token.span.start, index)` in index order, so a LATER index with
the same `span.start` overwrites an earlier one. -/
def posLookupAux : List (Nat × LToken) → Nat → Option Nat
  | [], _ => none
  | jt :: restPairs, p =>
    match posLookupAux restPairs p with
    | some j => some j
    | none => if jt.2.start = p then some jt.1 else none

/-- `positionToIndex.get(p)` for the token list `ts`. -/
def posLookup (ts : List LToken) (p : Nat) : Option Nat :=
  posLookupAux ts.enum p

/-- One iteration of the second `forEach` of `LexerView`: if the token at
index `i` carries `mate` (a byte offset), look up the token at that offset
and set ITS `mate` to this token's `span.start`.  The callback reads the
array element at visit time, so mutations by earlier iterations are
seen. -/
def mateStep (lookup : Nat → Option Nat) (arr : List LToken) (i : Nat) : List LToken :=
  match arr[i]? with
  | none => arr
  | some t =>
    match t.mate with
    | none => arr
    | some leftPos =>
      match lookup leftPos with
      | none => arr
      | some leftIdx =>
        match arr[leftIdx]? with
        | none => arr
        | some lt => arr.set leftIdx { lt with mate := some t.start }

/-- The whole mate post-processing of `LexerView`: shallow-copy the tokens
(`tokens.map(t => ({...t}))`), build `positionToIndex` from the unmutated
spans, then run the mutating pass over every index in order. -/
def lexerProcessTokens (tokens : List LToken) : List LToken :=
  (List.range tokens.length).foldl (mateStep (posLookup tokens)) tokens

/-- All tokens have pairwise distinct `span.start` offsets (true of a real
token stream, where token spans do not overlap). -/
def StartsInjective (tokens : List LToken) : Prop :=
  ∀ (j1 j2 : Nat) (t1 t2 : LToken), tokens[j1]? = some t1 → tokens[j2]? = some t2 →
    t1.start = t2.start → j1 = j2

/-! ### Debounced compile scheduling (`src/App.tsx`, the `[code]` effect)

The effect clears any pending `setTimeout` and schedules
`handleCompile(code)` 500 ms ahead.  The embedding processes source-change
events `(time, text)` in time order, carrying the pending timer
`(deadline, text)`: an event first lets a pending timer whose deadline has
already passed fire (that compile was issued before the cancellation could
happen), then replaces the pending timer; after the last event the
remaining timer fires. -/

/-- One `onSourceChange`-style event step over (pending timer, compiles
fired so far). -/
def debounceStep :
    Option (Nat × String) × List String → Nat × String →
      Option (Nat × String) × List String
  | (pending, fired), (t, text) =>
    let fired' :=
      match pending with
      | some (d, s) => if d ≤ t then fired ++ [s] else fired
      | none => fired
    (some (t + 500, text), fired')

/-- All compile requests issued for a time-ordered list of source-change
events, including the final pending timer firing once events stop. -/
def debounceRun (events : List (Nat × String)) : List String :=
  match events.foldl debounceStep (none, []) with
  | (some (_, s), fired) => fired ++ [s]
  | (none, fired) => fired

/-! ### Compilation results and the orchestrator (`handleCompile`, `src/App.tsx`) -/

/-- Wire form of a `NodeStore`: `{ roots, nodes }` with `nodes` an object
keyed by id; `Object.entries` order is the association-list order. -/
structure NodeStoreW where
  roots : List Nat
  nodes : List (Nat × FlatNode)
deriving DecidableEq, Repr

/-- The fields of a `CompilationResult` that the invariants below are
about: `success`, the two optional `NodeStore`s, and the optional
`error`.  The remaining payload (tokens, formatter outputs, recovery
records) rides along unchanged and is irrelevant to them. -/
structure CompResult where
  success : Bool
  surfaceNodeStore : Option NodeStoreW
  loweredNodeStore : Option NodeStoreW
  error : Option String
deriving DecidableEq, Repr

/-- The cache-building loop of `handleCompile`:
`Object.entries(store.nodes).forEach(([id, node]) => cache.set(id, node))`. -/
def buildCache (ns : NodeStoreW) : Cache := ns.nodes

/-- The view-observable state handled by `handleCompile`: the two id→node
caches and the published result. -/
structure UIState where
  surfaceCache : Cache
  loweredCache : Cache
  result : Option CompResult
deriving DecidableEq, Repr

/-- The sequence of observable states produced by one `handleCompile`
pass, in commit order.  On a returned result: `flushSync(setSurfaceCache)`
with the rebuilt (or emptied) surface cache, then `flushSync(setLoweredCache)`
likewise, then `setResult(res)` — the result is published only after both
caches.  When `compileWorkman` throws, the catch block publishes a bare
`{ success: false, error }` result without touching the caches. -/
def handleCompileStates (s0 : UIState) (outcome : Except String CompResult) :
    List UIState :=
  match outcome with
  | .ok res =>
    let s1 : UIState :=
      { s0 with surfaceCache := (res.surfaceNodeStore.map buildCache).getD [] }
    let s2 : UIState :=
      { s1 with loweredCache := (res.loweredNodeStore.map buildCache).getD [] }
    let s3 : UIState := { s2 with result := some res }
    [s1, s2, s3]
  | .error e =>
    [{ s0 with result := some ⟨false, none, none, some e⟩ }]

/-! ### Compiler API bindings (`compileWorkman`, `compileWorkmanServer`,
`src/lib/api.ts`) -/

/-- The success/error-relevant shape of a parsed JSON payload: whether it
carries a `success` key (and its boolean value), an `error` string, and
the two node stores.  Other stage fields ride along and are omitted. -/
structure JsonObj where
  hasSuccess : Bool
  successVal : Bool
  error : Option String
  surfaceNodeStore : Option NodeStoreW
  loweredNodeStore : Option NodeStoreW
deriving DecidableEq, Repr

/-- `{ success: true, ...(data ?? {}) }`: the object spread lets a
`success` or `error` key of the payload override/augment the literal. -/
def spreadSuccessTrue (d : JsonObj) : CompResult :=
  { success := if d.hasSuccess then d.successVal else true
    surfaceNodeStore := d.surfaceNodeStore
    loweredNodeStore := d.loweredNodeStore
    error := d.error }

/-- What the browser-side wasm run of `compileWorkman` can come back with:
instantiation/start failure (reported via stderr or the exception),
empty stdout, stdout that fails `JSON.parse`, or a parsed value (`none`
stands for JSON `null` or a non-object, whose spread contributes no
fields). -/
inductive WasmRun : Type where
  | startFailure (message : String)
  | emptyOutput (stderr : Option String)
  | parseFailure (message excerpt : String)
  | parsed (data : Option JsonObj)
deriving DecidableEq, Repr

/-- The result-shaping tail of `compileWorkman` (browser wasm binding):
every failure path yields `{ success: false, error }`; a parsed payload is
spread onto `{ success: true }`. -/
def compileWorkmanResult : WasmRun → CompResult
  | .startFailure m => ⟨false, none, none, some m⟩
  | .emptyOutput st =>
    ⟨false, none, none,
      some (match st with
        | some s => "Compiler produced no output. Stderr: " ++ s
        | none => "Compiler produced no output.")⟩
  | .parseFailure m ex =>
    ⟨false, none, none, some ("Failed to parse JSON: " ++ m ++ "\nOutput: " ++ ex)⟩
  | .parsed none => ⟨true, none, none, none⟩
  | .parsed (some d) => spreadSuccessTrue d

/-- The response body cases of `compileWorkmanServer` after an OK HTTP
status: unparsable JSON, a non-object value, an object carrying a
`success` key (with its `data`/`error` companions), or an object without
one (raw compiler output, spread onto `{ success: true }`). -/
inductive ServerBody : Type where
  | notJson (message excerpt : String)
  | nonObject
  | objWithSuccess (successVal : Bool) (dataField : Option JsonObj) (errField : Option String)
  | objNoSuccess (payload : JsonObj)
deriving DecidableEq, Repr

/-- The result shaping of `compileWorkmanServer` (HTTP binding).  A non-OK
response throws (`Except.error`) and produces no `CompilationResult`; an
OK response is shaped from the body. -/
def compileWorkmanServerResult (ok : Bool) (status : Nat) (body : ServerBody) :
    Except String CompResult :=
  if !ok then .error ("HTTP error! status: " ++ toString status)
  else
    .ok <|
      match body with
      | .notJson m ex =>
        ⟨false, none, none, some ("Failed to parse JSON: " ++ m ++ "\nOutput: " ++ ex)⟩
      | .nonObject => ⟨false, none, none, some "Invalid response from compiler"⟩
      | .objWithSuccess true dataField _ =>
        spreadSuccessTrue (dataField.getD ⟨false, false, none, none, none⟩)
      | .objWithSuccess false _ errField =>
        ⟨false, none, none, some (errField.getD "Compilation failed")⟩
      | .objNoSuccess payload => spreadSuccessTrue payload

/-- The spec's "exactly one of `success === true` or `error` set" shape for
a compilation result. -/
abbrev ExactlyOneOutcome (r : CompResult) : Prop :=
  (r.success = true ∧ r.error = none) ∨ (r.success = false ∧ r.error.isSome)

/-- A backend JSON payload that does not itself contradict the
success/error discipline: either it reports no error and does not carry
`success: false`, or it reports an error together with `success: false`. -/
def PayloadConsistent (d : JsonObj) : Prop :=
  (d.error = none ∧ (d.hasSuccess = true → d.successVal = true)) ∨
  (d.error.isSome ∧ d.hasSuccess = true ∧ d.successVal = false)

/-! ### Concrete fixtures used by the claims -/

/-- A single node whose child edge points back at itself. -/
def selfRefCache : Cache := [(1, ⟨1, "Loop", some ⟨0, 4⟩, [⟨"next", 1⟩]⟩)]

/-- Two nodes referencing each other. -/
def mutualCycleCache : Cache :=
  [(1, ⟨1, "A", some ⟨0, 9⟩, [⟨"child", 2⟩]⟩),
   (2, ⟨2, "B", some ⟨2, 7⟩, [⟨"back", 1⟩]⟩)]

/-- An acyclic diamond: 1 → {a: 2, b: 3}, 2 → {c: 4}, 3 → {d: 4}; node 4 is
reachable along two distinct non-overlapping paths. -/
def diamondCache : Cache :=
  [(1, ⟨1, "Root", none, [⟨"a", 2⟩, ⟨"b", 3⟩]⟩),
   (2, ⟨2, "Left", none, [⟨"c", 4⟩]⟩),
   (3, ⟨3, "Right", none, [⟨"d", 4⟩]⟩),
   (4, ⟨4, "Shared", none, []⟩)]

/-- What the code produces on `diamondCache`: the shared node 4 appears
only under its FIRST occurrence (under 2); under 3 it is omitted, because
the visited set is shared across the whole traversal. -/
def diamondResolvedShared : ResolvedNode :=
  .mk 1 "Root" none none
    [.mk 2 "Left" (some "a") none [.mk 4 "Shared" (some "c") none []],
     .mk 3 "Right" (some "b") none []]

/-- What per-path (copied visited set) semantics would produce on
`diamondCache`: node 4 resolved under BOTH 2 and 3. -/
def diamondResolvedPerPath : ResolvedNode :=
  .mk 1 "Root" none none
    [.mk 2 "Left" (some "a") none [.mk 4 "Shared" (some "c") none []],
     .mk 3 "Right" (some "b") none [.mk 4 "Shared" (some "d") none []]]

/-- Node 1 has a dangling first child (id 9 absent) and a live sibling. -/
def danglingCache : Cache :=
  [(1, ⟨1, "P", some ⟨0, 8⟩, [⟨"a", 9⟩, ⟨"b", 2⟩]⟩),
   (2, ⟨2, "Q", some ⟨3, 6⟩, []⟩)]

/-- The spec's cursor-mapping example: A (span [0,50]) ⊃ B ([10,20]) ⊃
C ([12,15]). -/
def exTreeC : ResolvedNode := .mk 3 "C" none (some ⟨12, 15⟩) []

def exTreeB : ResolvedNode := .mk 2 "B" none (some ⟨10, 20⟩) [exTreeC]

def exTreeA : ResolvedNode := .mk 1 "A" none (some ⟨0, 50⟩) [exTreeB]

/-- Two siblings with identical spans, to exhibit encounter-order
tie-breaking. -/
def tieB1 : ResolvedNode := .mk 2 "B1" none (some ⟨10, 20⟩) []

def tieB2 : ResolvedNode := .mk 3 "B2" none (some ⟨10, 20⟩) []

def tieParent : ResolvedNode := .mk 1 "P" none (some ⟨0, 50⟩) [tieB1, tieB2]

/-- The formatter-alignment example's original tokens `[A, B, C]`. -/
def fmtOriginal : List Tok :=
  [⟨"Ident", some "a", some ⟨0, 1⟩⟩, ⟨"Ident", some "b", some ⟨2, 3⟩⟩,
   ⟨"Ident", some "c", some ⟨4, 5⟩⟩]

/-- The formatted tokens `[A, SEMI, B, C]` (spans shifted by the insert). -/
def fmtFormatted : List Tok :=
  [⟨"Ident", some "a", some ⟨0, 1⟩⟩, ⟨"Semicolon", some ";", some ⟨1, 2⟩⟩,
   ⟨"Ident", some "b", some ⟨3, 4⟩⟩, ⟨"Ident", some "c", some ⟨5, 6⟩⟩]

/-- The "is a semicolon" predicate of the structural formatter view. -/
def isSemiTok (t : Tok) : Bool := t.kind == "Semicolon"

/-- A bracket pair for the LexerView witness: `(` at offset 0, an
identifier, and `)` at offset 4 carrying `mate = 0`. -/
def lexExample : List LToken :=
  [⟨"LParen", 0, 1, some "(", none⟩,
   ⟨"Ident", 1, 4, some "foo", none⟩,
   ⟨"RParen", 4, 5, some ")", some 0⟩]

/-! ### Resolver lemmas -/

theorem cacheLookup_some_mem_keys {cache : Cache} {id : Nat} {n : FlatNode}
    (h : cacheLookup cache id = some n) : id ∈ cacheKeys cache := by
  unfold cacheLookup at h
  rcases Option.map_eq_some'.1 h with ⟨p, hp, rfl⟩
  have hmem : p ∈ cache := (List.mem_reverse).1 (List.mem_of_find?_eq_some hp)
  have hkey := List.find?_some hp
  have heq : p.1 = id := by simpa using hkey
  subst heq
  exact List.mem_map.2 ⟨p, hmem, rfl⟩

theorem cacheLookup_eq_none_of_not_mem {cache : Cache} {id : Nat}
    (h : id ∉ cacheKeys cache) : cacheLookup cache id = none := by
  cases hl : cacheLookup cache id with
  | none => rfl
  | some n => exact absurd (cacheLookup_some_mem_keys hl) h

theorem ResolvedNode.ids_mk (i : Nat) (k : String) (f : Option String)
    (s : Option Span) (cs : List ResolvedNode) :
    (ResolvedNode.mk i k f s cs).ids = i :: (cs.map ResolvedNode.ids).flatten := by
  rw [ResolvedNode.ids]
  simp [List.attach_map_coe]

theorem cacheLookup_id_eq {cache : Cache} {id : Nat} {n : FlatNode}
    (hwf : CacheWF cache) (h : cacheLookup cache id = some n) : n.id = id := by
  unfold cacheLookup at h
  rcases Option.map_eq_some'.1 h with ⟨p, hp, rfl⟩
  have hmem : p ∈ cache := (List.mem_reverse).1 (List.mem_of_find?_eq_some hp)
  have hkey := List.find?_some hp
  have heq : p.1 = id := by simpa using hkey
  rw [hwf p hmem, heq]

theorem resolveChildrenAux_subset
    {recf : Nat → Finset Nat → Option (Option ResolvedNode × Finset Nat)}
    (hrec : ∀ i v r v', recf i v = some (r, v') → v ⊆ v') :
    ∀ (cs : List ChildRef) (v : Finset Nat) (ts : List ResolvedNode) (v' : Finset Nat),
      resolveChildrenAux recf cs v = some (ts, v') → v ⊆ v' := by
  intro cs
  induction cs with
  | nil =>
    intro v ts v' h
    simp only [resolveChildrenAux] at h
    cases h
    exact Finset.Subset.refl _
  | cons c rest ih =>
    intro v ts v' h
    simp only [resolveChildrenAux] at h
    split at h
    · exact Option.noConfusion h
    · rename_i r v1 h1
      split at h
      · exact Option.noConfusion h
      · rename_i tail v2 h2
        have hv1 : v ⊆ v1 := hrec _ _ _ _ h1
        have hv2 : v1 ⊆ v2 := ih _ _ _ h2
        split at h <;> cases h <;> exact hv1.trans hv2

theorem resolveNodeF_subset :
    ∀ (fuel : Nat) (cache : Cache) (id : Nat) (v : Finset Nat)
      (r : Option ResolvedNode) (v' : Finset Nat),
      resolveNodeF fuel cache id v = some (r, v') → v ⊆ v' := by
  intro fuel
  induction fuel with
  | zero => intro cache id v r v' h; cases h
  | succ fuel ih =>
    intro cache id v r v' h
    simp only [resolveNodeF] at h
    split at h
    · cases h
      exact Finset.Subset.refl _
    · split at h
      · cases h
        exact Finset.subset_insert _ _
      · rename_i hmem node hl
        split at h
        · exact Option.noConfusion h
        · rename_i kids v2 h2
          cases h
          exact (Finset.subset_insert _ _).trans
            (resolveChildrenAux_subset (fun i w r w' hh => ih cache i w r w' hh) _ _ _ _ h2)

theorem unvisitedCount_mono {cache : Cache} {v w : Finset Nat} (h : v ⊆ w) :
    unvisitedCount cache w ≤ unvisitedCount cache v :=
  Finset.card_le_card (Finset.sdiff_subset_sdiff (Finset.Subset.refl _) h)

theorem unvisitedCount_insert_lt {cache : Cache} {v : Finset Nat} {id : Nat}
    (hk : id ∈ cacheKeys cache) (hv : id ∉ v) :
    unvisitedCount cache (insert id v) < unvisitedCount cache v := by
  unfold unvisitedCount
  have hid : id ∈ (cacheKeys cache).toFinset \ v :=
    Finset.mem_sdiff.2 ⟨List.mem_toFinset.2 hk, hv⟩
  calc ((cacheKeys cache).toFinset \ insert id v).card
      = (((cacheKeys cache).toFinset \ v).erase id).card := by
        rw [Finset.sdiff_insert]
    _ < ((cacheKeys cache).toFinset \ v).card :=
        Finset.card_erase_lt_of_mem hid

theorem resolveChildrenAux_isSome
    {recf : Nat → Finset Nat → Option (Option ResolvedNode × Finset Nat)}
    (m : Finset Nat → Nat) (B : Nat)
    (hmono : ∀ i v r v', recf i v = some (r, v') → m v' ≤ m v)
    (hsome : ∀ i v, m v ≤ B → (recf i v).isSome) :
    ∀ (cs : List ChildRef) (v : Finset Nat), m v ≤ B →
      (resolveChildrenAux recf cs v).isSome := by
  intro cs
  induction cs with
  | nil => intro v _; simp [resolveChildrenAux]
  | cons c rest ih =>
    intro v hv
    simp only [resolveChildrenAux]
    cases h1 : recf c.id v with
    | none =>
      have := hsome c.id v hv
      rw [h1] at this
      cases this
    | some p =>
      obtain ⟨r, v1⟩ := p
      have hv1 : m v1 ≤ B := le_trans (hmono _ _ _ _ h1) hv
      have h2 := ih v1 hv1
      cases h2' : resolveChildrenAux recf rest v1 with
      | none => rw [h2'] at h2; cases h2
      | some q =>
        obtain ⟨tail, v2⟩ := q
        cases r <;> simp [h2']

theorem resolveNodeF_isSome :
    ∀ (fuel : Nat) (cache : Cache) (id : Nat) (v : Finset Nat),
      unvisitedCount cache v < fuel → (resolveNodeF fuel cache id v).isSome := by
  intro fuel
  induction fuel with
  | zero => intro cache id v h; exact absurd h (Nat.not_lt_zero _)
  | succ fuel ih =>
    intro cache id v hfuel
    simp only [resolveNodeF]
    split
    · simp
    · rename_i hmem
      cases hl : cacheLookup cache id with
      | none => simp
      | some node =>
        have hk : id ∈ cacheKeys cache := cacheLookup_some_mem_keys hl
        have hlt : unvisitedCount cache (insert id v) < unvisitedCount cache v :=
          unvisitedCount_insert_lt hk hmem
        have hB : unvisitedCount cache (insert id v) ≤ fuel - 1 := by omega
        have hch := @resolveChildrenAux_isSome (fun i w => resolveNodeF fuel cache i w)
          (unvisitedCount cache) (fuel - 1)
          (fun i w r w' hh =>
            unvisitedCount_mono (resolveNodeF_subset fuel cache i w r w' hh))
          (fun i w hw => ih cache i w (by omega))
          node.children (insert id v) hB
        cases h2 : resolveChildrenAux (fun i w => resolveNodeF fuel cache i w)
            node.children (insert id v) with
        | none => rw [h2] at hch; cases hch
        | some q => obtain ⟨kids, v2⟩ := q; simp [h2]

theorem resolveChildrenAux_insert
    {recf : Nat → Finset Nat → Option (Option ResolvedNode × Finset Nat)} {d : Nat}
    (hrec : ∀ i v, recf i (insert d v) =
      (recf i v).map (fun p => (p.1, insert d p.2))) :
    ∀ (cs : List ChildRef) (v : Finset Nat),
      resolveChildrenAux recf cs (insert d v) =
        (resolveChildrenAux recf cs v).map (fun p => (p.1, insert d p.2)) := by
  intro cs
  induction cs with
  | nil => intro v; simp [resolveChildrenAux]
  | cons c rest ih =>
    intro v
    simp only [resolveChildrenAux, hrec c.id v]
    cases h1 : recf c.id v with
    | none => simp
    | some p =>
      obtain ⟨r, v1⟩ := p
      simp only [Option.map_some']
      rw [ih v1]
      cases h2 : resolveChildrenAux recf rest v1 with
      | none => simp
      | some q =>
        obtain ⟨tail, v2⟩ := q
        cases r <;> simp

theorem resolveNodeF_insert_nonkey :
    ∀ (fuel : Nat) (cache : Cache) (d : Nat), d ∉ cacheKeys cache →
      ∀ (id : Nat) (v : Finset Nat),
        resolveNodeF fuel cache id (insert d v) =
          (resolveNodeF fuel cache id v).map (fun p => (p.1, insert d p.2)) := by
  intro fuel
  induction fuel with
  | zero => intro cache d _ id v; rfl
  | succ fuel ih =>
    intro cache d hd id v
    by_cases hidv : id ∈ v
    · have h1 : id ∈ insert d v := Finset.mem_insert_of_mem hidv
      simp [resolveNodeF, h1, hidv]
    · by_cases hid : id = d
      · subst hid
        have h1 : id ∈ insert id v := Finset.mem_insert_self _ _
        have hl : cacheLookup cache id = none := cacheLookup_eq_none_of_not_mem hd
        simp [resolveNodeF, h1, hidv, hl, Finset.insert_idem]
      · have h1 : id ∉ insert d v := by
          simp [Finset.mem_insert, hid, hidv]
        simp only [resolveNodeF, if_neg h1, if_neg hidv]
        have hcomm : insert id (insert d v) = insert d (insert id v) :=
          Finset.Insert.comm _ _ _
        rw [hcomm]
        cases hl : cacheLookup cache id with
        | none => simp
        | some node =>
          simp only [resolveChildrenAux_insert (fun i w => ih cache d hd i w)]
          cases h2 : resolveChildrenAux (fun i w => resolveNodeF fuel cache i w)
              node.children (insert id v) with
          | none => simp [h2]
          | some q => obtain ⟨kids, v2⟩ := q; simp [h2]

theorem ResolvedNode.ids_withField (f : String) (t : ResolvedNode) :
    (t.withField f).ids = t.ids := by
  cases t
  simp [ResolvedNode.withField, ResolvedNode.ids_mk]

theorem resolveChildrenAux_ids
    {recf : Nat → Finset Nat → Option (Option ResolvedNode × Finset Nat)}
    (keysF : Finset Nat)
    (hsub : ∀ i v r v', recf i v = some (r, v') → v ⊆ v')
    (hids : ∀ i v t v', recf i v = some (some t, v') →
      t.ids.Nodup ∧ ∀ x ∈ t.ids, x ∈ v' ∧ x ∉ v ∧ x ∈ keysF) :
    ∀ (cs : List ChildRef) (v : Finset Nat) (ts : List ResolvedNode) (v' : Finset Nat),
      resolveChildrenAux recf cs v = some (ts, v') →
        (ts.map ResolvedNode.ids).flatten.Nodup ∧
        ∀ x ∈ (ts.map ResolvedNode.ids).flatten, x ∈ v' ∧ x ∉ v ∧ x ∈ keysF := by
  intro cs
  induction cs with
  | nil =>
    intro v ts v' h
    simp only [resolveChildrenAux] at h
    cases h
    simp
  | cons c rest ih =>
    intro v ts v' h
    simp only [resolveChildrenAux] at h
    split at h
    · exact Option.noConfusion h
    · rename_i r v1 h1
      split at h
      · exact Option.noConfusion h
      · rename_i tail v2 h2
        have hv1 : v ⊆ v1 := hsub _ _ _ _ h1
        have htail := ih v1 tail v2 h2
        cases r with
        | none =>
          cases h
          refine ⟨htail.1, fun x hx => ?_⟩
          obtain ⟨hxv2, hxnv1, hxk⟩ := htail.2 x hx
          exact ⟨hxv2, fun hxv => hxnv1 (hv1 hxv), hxk⟩
        | some rn =>
          cases h
          obtain ⟨hnodup, hmem⟩ := hids _ _ _ _ h1
          have hv12 := resolveChildrenAux_subset hsub _ _ _ _ h2
          constructor
          · simp only [List.map_cons, List.flatten_cons, ResolvedNode.ids_withField]
            refine List.Nodup.append hnodup htail.1 ?_
            intro x hx hx'
            obtain ⟨hxv1, -, -⟩ := hmem x hx
            obtain ⟨-, hxnv1, -⟩ := htail.2 x hx'
            exact hxnv1 hxv1
          · intro x hx
            simp only [List.map_cons, List.flatten_cons, ResolvedNode.ids_withField,
              List.mem_append] at hx
            cases hx with
            | inl hx =>
              obtain ⟨hxv1, hxnv, hxk⟩ := hmem x hx
              exact ⟨hv12 hxv1, hxnv, hxk⟩
            | inr hx =>
              obtain ⟨hxv2, hxnv1, hxk⟩ := htail.2 x hx
              exact ⟨hxv2, fun hxv => hxnv1 (hv1 hxv), hxk⟩

theorem resolveNodeF_ids {cache : Cache} (hwf : CacheWF cache) :
    ∀ (fuel : Nat) (id : Nat) (v : Finset Nat) (t : ResolvedNode) (v' : Finset Nat),
      resolveNodeF fuel cache id v = some (some t, v') →
        t.ids.Nodup ∧
        ∀ x ∈ t.ids, x ∈ v' ∧ x ∉ v ∧ x ∈ (cacheKeys cache).toFinset := by
  intro fuel
  induction fuel with
  | zero => intro id v t v' h; cases h
  | succ fuel ih =>
    intro id v t v' h
    simp only [resolveNodeF] at h
    split at h
    · cases h
    · rename_i hmem
      split at h
      · cases h
      · rename_i node hl
        split at h
        · exact Option.noConfusion h
        · rename_i kids v2 h2
          cases h
          have hnid : node.id = id := cacheLookup_id_eq hwf hl
          have hkeys : id ∈ (cacheKeys cache).toFinset :=
            List.mem_toFinset.2 (cacheLookup_some_mem_keys hl)
          have hsubv :=
            resolveChildrenAux_subset
              (fun i w r w' hh => resolveNodeF_subset fuel cache i w r w' hh) _ _ _ _ h2
          have hch := resolveChildrenAux_ids ((cacheKeys cache).toFinset)
            (fun i w r w' hh => resolveNodeF_subset fuel cache i w r w' hh)
            (fun i w t' w' hh => ih i w t' w' hh) _ _ _ _ h2
          rw [ResolvedNode.ids_mk, hnid]
          constructor
          · refine List.nodup_cons.2 ⟨fun hx => ?_, hch.1⟩
            obtain ⟨-, hxn, -⟩ := hch.2 id hx
            exact hxn (Finset.mem_insert_self _ _)
          · intro x hx
            rcases List.mem_cons.1 hx with rfl | hx
            · exact ⟨hsubv (Finset.mem_insert_self _ _), hmem, hkeys⟩
            · obtain ⟨hxv2, hxn, hxk⟩ := hch.2 x hx
              exact ⟨hxv2, fun hxv => hxn (Finset.mem_insert_of_mem hxv), hxk⟩

/-! ### Cursor-mapping lemmas -/

theorem findNodeAtPosition_isSome (n : ResolvedNode) (offset : Nat) :
    (findNodeAtPosition n offset).isSome = spanContainsB n.span offset := by
  cases n with
  | mk i k f s cs =>
    simp only [findNodeAtPosition, ResolvedNode.span]
    split
    · rename_i hc
      cases findFirstChild cs offset <;> simp [hc]
    · rename_i hc
      simp [Bool.not_eq_true] at hc
      simp [hc]

theorem findFirstChild_some {cs : List ResolvedNode} {offset : Nat} {m : ResolvedNode}
    (h : findFirstChild cs offset = some m) :
    ∃ c ∈ cs, findNodeAtPosition c offset = some m := by
  induction cs with
  | nil => cases h
  | cons c rest ih =>
    simp only [findFirstChild] at h
    cases h1 : findNodeAtPosition c offset with
    | none =>
      rw [h1] at h
      obtain ⟨c', hc', hfind⟩ := ih h
      exact ⟨c', List.mem_cons_of_mem _ hc', hfind⟩
    | some m' =>
      rw [h1] at h
      cases h
      exact ⟨c, List.mem_cons_self _ _, h1⟩

theorem findNodeAtPosition_spec_aux :
    ∀ (N : Nat) (n : ResolvedNode), sizeOf n ≤ N →
      ∀ (offset : Nat) (m : ResolvedNode), findNodeAtPosition n offset = some m →
        spanContainsB m.span offset = true ∧ findFirstChild m.children offset = none := by
  intro N
  induction N with
  | zero =>
    intro n hn
    exfalso
    cases n with
    | mk i k f s cs => simp at hn
  | succ N ih =>
    intro n hn offset m h
    cases n with
    | mk i k f s cs =>
      simp only [findNodeAtPosition] at h
      split at h
      · rename_i hc
        cases h1 : findFirstChild cs offset with
        | none =>
          rw [h1] at h
          cases h
          exact ⟨hc, h1⟩
        | some m' =>
          rw [h1] at h
          cases h
          obtain ⟨c, hcmem, hcfind⟩ := findFirstChild_some h1
          have hsz : sizeOf c ≤ N := by
            have := List.sizeOf_lt_of_mem hcmem
            have hmk : sizeOf (ResolvedNode.mk i k f s cs) =
                1 + sizeOf i + sizeOf k + sizeOf f + sizeOf s + sizeOf cs := by
              simp
            omega
          exact ih c hsz offset m hcfind
      · exact Option.noConfusion h

/-! ### Formatter-diff lemmas -/

theorem insertedLoop_mem {pred : Tok → Bool} {cls : String} :
    ∀ (formatted source : List Tok) (h : HSpan),
      h ∈ insertedLoop pred cls source formatted →
        ∃ f ∈ formatted, pred f = true ∧ f.span = some ⟨h.start, h.stop⟩ ∧
          h.className = cls := by
  intro formatted
  induction formatted with
  | nil => intro source h hmem; simp [insertedLoop] at hmem
  | cons f rest ih =>
    intro source h hmem
    cases source with
    | nil =>
      simp only [insertedLoop] at hmem
      split at hmem
      · rename_i sp hpred hspan
        rcases List.mem_cons.1 hmem with rfl | hmem
        · exact ⟨f, List.mem_cons_self _ _, hpred, hspan, rfl⟩
        · obtain ⟨f', hf', hp⟩ := ih [] h hmem
          exact ⟨f', List.mem_cons_of_mem _ hf', hp⟩
      · obtain ⟨f', hf', hp⟩ := ih [] h hmem
        exact ⟨f', List.mem_cons_of_mem _ hf', hp⟩
    | cons s srest =>
      simp only [insertedLoop] at hmem
      split at hmem
      · obtain ⟨f', hf', hp⟩ := ih srest h hmem
        exact ⟨f', List.mem_cons_of_mem _ hf', hp⟩
      · split at hmem
        · rename_i sp hpred hspan
          rcases List.mem_cons.1 hmem with rfl | hmem
          · exact ⟨f, List.mem_cons_self _ _, hpred, hspan, rfl⟩
          · obtain ⟨f', hf', hp⟩ := ih (s :: srest) h hmem
            exact ⟨f', List.mem_cons_of_mem _ hf', hp⟩
        · obtain ⟨f', hf', hp⟩ := ih (s :: srest) h hmem
          exact ⟨f', List.mem_cons_of_mem _ hf', hp⟩

theorem insertedLoop_eq_nil {pred : Tok → Bool} {cls : String} :
    ∀ (formatted source : List Tok),
      source.map normalizeToken = formatted.map normalizeToken →
      insertedLoop pred cls source formatted = [] := by
  intro formatted
  induction formatted with
  | nil => intro source h; cases source <;> simp [insertedLoop] at h ⊢
  | cons f rest ih =>
    intro source h
    cases source with
    | nil => simp at h
    | cons s srest =>
      simp only [List.map_cons, List.cons.injEq] at h
      simp only [insertedLoop]
      rw [if_pos (by simp [h.1])]
      exact ih srest h.2

/-! ### LexerView mate lemmas -/

theorem posLookupAux_isSome :
    ∀ (L : List (Nat × LToken)) (p : Nat) (j : Nat) (t : LToken),
      (j, t) ∈ L → t.start = p → (posLookupAux L p).isSome := by
  intro L
  induction L with
  | nil => intro p j t h _; cases h
  | cons jt rest ih =>
    obtain ⟨a, u⟩ := jt
    intro p j t hmem hstart
    simp only [posLookupAux]
    cases hrest : posLookupAux rest p with
    | some j' => simp
    | none =>
      rcases List.mem_cons.1 hmem with heq | hmem
      · cases heq
        simp [hstart]
      · have := ih p j t hmem hstart
        rw [hrest] at this
        cases this

theorem posLookupAux_some_mem :
    ∀ (L : List (Nat × LToken)) (p : Nat) (j : Nat),
      posLookupAux L p = some j → ∃ t, (j, t) ∈ L ∧ t.start = p := by
  intro L
  induction L with
  | nil => intro p j h; cases h
  | cons jt rest ih =>
    obtain ⟨a, u⟩ := jt
    intro p j h
    simp only [posLookupAux] at h
    cases hrest : posLookupAux rest p with
    | some j' =>
      rw [hrest] at h
      cases h
      obtain ⟨t, hmem, hstart⟩ := ih p j hrest
      exact ⟨t, List.mem_cons_of_mem _ hmem, hstart⟩
    | none =>
      rw [hrest] at h
      by_cases hup : u.start = p
      · rw [if_pos hup] at h
        cases h
        exact ⟨u, List.mem_cons_self _ _, hup⟩
      · rw [if_neg hup] at h
        cases h

theorem posLookupAux_eq :
    ∀ (L : List (Nat × LToken)) (p : Nat) (j : Nat) (t : LToken),
      (j, t) ∈ L → t.start = p →
      (∀ k u, (k, u) ∈ L → u.start = p → k = j) →
      posLookupAux L p = some j := by
  intro L
  induction L with
  | nil => intro p j t h _ _; cases h
  | cons jt rest ih =>
    obtain ⟨a, u⟩ := jt
    intro p j t hmem hstart huniq
    simp only [posLookupAux]
    cases hrest : posLookupAux rest p with
    | some j' =>
      obtain ⟨w, hwmem, hwstart⟩ := posLookupAux_some_mem rest p j' hrest
      rw [huniq j' w (List.mem_cons_of_mem _ hwmem) hwstart]
    | none =>
      rcases List.mem_cons.1 hmem with heq | hmem
      · cases heq
        simp [hstart]
      · have := posLookupAux_isSome rest p j t hmem hstart
        rw [hrest] at this
        cases this

theorem posLookup_eq {tokens : List LToken} {j : Nat} {t : LToken}
    (hinj : StartsInjective tokens) (h : tokens[j]? = some t) :
    posLookup tokens t.start = some j := by
  unfold posLookup
  refine posLookupAux_eq _ _ j t ?_ rfl ?_
  · exact List.mk_mem_enum_iff_getElem?.2 h
  · intro k u hku hstart
    have hk : tokens[k]? = some u := List.mk_mem_enum_iff_getElem?.1 hku
    exact hinj k j u t hk h hstart

theorem getElem?_set_of_some {l : List LToken} {i : Nat} {y : LToken}
    (h : l[i]? = some y) (x : LToken) : (l.set i x)[i]? = some x := by
  rw [List.getElem?_set_self', h]
  rfl

theorem ltoken_update_mate_self {t : LToken} {m : Option Nat} (h : t.mate = m) :
    { t with mate := m } = t := by
  cases t
  cases h
  rfl

theorem mateStep_of_getElem_none {lk : Nat → Option Nat} {arr : List LToken} {i : Nat}
    (h : arr[i]? = none) : mateStep lk arr i = arr := by
  simp [mateStep, h]

theorem mateStep_of_mate_none {lk : Nat → Option Nat} {arr : List LToken} {i : Nat}
    {t : LToken} (h : arr[i]? = some t) (hm : t.mate = none) :
    mateStep lk arr i = arr := by
  simp [mateStep, h, hm]

theorem mateStep_of_mate_some {lk : Nat → Option Nat} {arr : List LToken} {i : Nat}
    {t : LToken} {p j : Nat} {u w : LToken}
    (h : arr[i]? = some t) (hm : t.mate = some p) (hlk : lk p = some j)
    (hj : arr[j]? = some u) (hw : { u with mate := some t.start } = w) :
    mateStep lk arr i = arr.set j w := by
  rw [← hw]
  simp [mateStep, h, hm, hlk, hj]

theorem mateStep_spec
    (tokens : List LToken) (o c : Nat) (tO tC : LToken)
    (hinj : StartsInjective tokens)
    (ho : tokens[o]? = some tO) (hc : tokens[c]? = some tC)
    (hoc : o ≠ c)
    (hmate : tC.mate = some tO.start)
    (honly : ∀ j t, tokens[j]? = some t → j ≠ c → t.mate = none)
    (arr : List LToken) (i : Nat)
    (h1 : ∀ j, j ≠ o → j ≠ c → arr[j]? = tokens[j]?)
    (h2 : arr[c]? = some tC)
    (h3 : arr[o]? = some tO ∨ arr[o]? = some { tO with mate := some tC.start }) :
    (∀ j, j ≠ o → j ≠ c → (mateStep (posLookup tokens) arr i)[j]? = tokens[j]?) ∧
    (mateStep (posLookup tokens) arr i)[c]? = some tC ∧
    ((mateStep (posLookup tokens) arr i)[o]? = some tO ∨
      (mateStep (posLookup tokens) arr i)[o]? = some { tO with mate := some tC.start }) ∧
    (i = c → (mateStep (posLookup tokens) arr i)[o]? = some { tO with mate := some tC.start }) ∧
    (arr[o]? = some { tO with mate := some tC.start } →
      (mateStep (posLookup tokens) arr i)[o]? = some { tO with mate := some tC.start }) := by
  have hmateO : tO.mate = none := honly o tO ho hoc
  cases hai : arr[i]? with
  | none =>
    rw [mateStep_of_getElem_none hai]
    refine ⟨h1, h2, h3, ?_, fun hp => hp⟩
    intro hic
    subst hic
    rw [h2] at hai
    cases hai
  | some t =>
    by_cases hio : i = o
    · subst hio
      rcases h3 with h3 | h3
      · rw [h3] at hai
        injection hai with ht
        subst ht
        rw [mateStep_of_mate_none h3 hmateO]
        refine ⟨h1, h2, Or.inl h3, fun hic => absurd hic hoc, fun hp => ?_⟩
        rw [h3] at hp
        injection hp with he
        have hm := congrArg LToken.mate he
        rw [hmateO] at hm
        exact Option.noConfusion hm
      · rw [h3] at hai
        injection hai with ht
        subst ht
        have hlk : posLookup tokens tC.start = some c := posLookup_eq hinj hc
        rw [mateStep_of_mate_some h3 rfl hlk h2 (ltoken_update_mate_self hmate)]
        refine ⟨?_, getElem?_set_of_some h2 tC, Or.inr ?_, fun hic => absurd hic hoc,
          fun _ => ?_⟩
        · intro j hjo hjc
          rw [List.getElem?_set_ne (Ne.symm hjc)]
          exact h1 j hjo hjc
        · rw [List.getElem?_set_ne (Ne.symm hoc)]
          exact h3
        · rw [List.getElem?_set_ne (Ne.symm hoc)]
          exact h3
    · by_cases hic : i = c
      · subst hic
        rw [h2] at hai
        injection hai with ht
        subst ht
        have hlkO : posLookup tokens tO.start = some o := posLookup_eq hinj ho
        rcases h3 with h3 | h3
        · rw [mateStep_of_mate_some h2 hmate hlkO h3 rfl]
          refine ⟨?_, ?_, Or.inr (getElem?_set_of_some h3 _),
            fun _ => getElem?_set_of_some h3 _, fun _ => getElem?_set_of_some h3 _⟩
          · intro j hjo hjc
            rw [List.getElem?_set_ne (Ne.symm hjo)]
            exact h1 j hjo hjc
          · rw [List.getElem?_set_ne hoc]
            exact h2
        · rw [mateStep_of_mate_some h2 hmate hlkO h3 (ltoken_update_mate_self rfl)]
          refine ⟨?_, ?_, Or.inr (getElem?_set_of_some h3 _),
            fun _ => getElem?_set_of_some h3 _, fun _ => getElem?_set_of_some h3 _⟩
          · intro j hjo hjc
            rw [List.getElem?_set_ne (Ne.symm hjo)]
            exact h1 j hjo hjc
          · rw [List.getElem?_set_ne hoc]
            exact h2
      · have hit : arr[i]? = tokens[i]? := h1 i hio hic
        rw [hai] at hit
        have hmn : t.mate = none := honly i t hit.symm hic
        rw [mateStep_of_mate_none hai hmn]
        exact ⟨h1, h2, h3, fun h => absurd h hic, fun hp => hp⟩

theorem mateFold_spec
    (tokens : List LToken) (o c : Nat) (tO tC : LToken)
    (hinj : StartsInjective tokens)
    (ho : tokens[o]? = some tO) (hc : tokens[c]? = some tC)
    (hoc : o ≠ c)
    (hmate : tC.mate = some tO.start)
    (honly : ∀ j t, tokens[j]? = some t → j ≠ c → t.mate = none) :
    ∀ (idxs : List Nat) (arr : List LToken),
      (∀ j, j ≠ o → j ≠ c → arr[j]? = tokens[j]?) →
      arr[c]? = some tC →
      (arr[o]? = some tO ∨ arr[o]? = some { tO with mate := some tC.start }) →
        (idxs.foldl (mateStep (posLookup tokens)) arr)[c]? = some tC ∧
        ((c ∈ idxs ∨ arr[o]? = some { tO with mate := some tC.start }) →
          (idxs.foldl (mateStep (posLookup tokens)) arr)[o]? =
            some { tO with mate := some tC.start }) := by
  intro idxs
  induction idxs with
  | nil =>
    intro arr h1 h2 h3
    refine ⟨h2, fun h => ?_⟩
    rcases h with h | h
    · cases h
    · exact h
  | cons i rest ih =>
    intro arr h1 h2 h3
    obtain ⟨s1, s2, s3, s4, s5⟩ :=
      mateStep_spec tokens o c tO tC hinj ho hc hoc hmate honly arr i h1 h2 h3
    obtain ⟨g2, g4⟩ := ih (mateStep (posLookup tokens) arr i) s1 s2 s3
    rw [List.foldl_cons]
    refine ⟨g2, fun h => g4 ?_⟩
    rcases h with h | h
    · rcases List.mem_cons.1 h with heq | hmemr
      · exact Or.inr (s4 heq.symm)
      · exact Or.inl hmemr
    · exact Or.inr (s5 h)

/-! ### Debounce lemmas -/

theorem debounceFold_within :
    ∀ (rest : List (Nat × String)) (t : Nat) (text : String) (fired : List String),
      List.Chain (fun a b => b.1 < a.1 + 500) (t, text) rest →
      rest.foldl debounceStep (some (t + 500, text), fired) =
        (some ((rest.getLastD (t, text)).1 + 500, (rest.getLastD (t, text)).2), fired) := by
  intro rest
  induction rest with
  | nil => intro t text fired _; simp [List.getLastD]
  | cons e rest' ih =>
    intro t text fired hchain
    obtain ⟨t', text'⟩ := e
    rw [List.chain_cons] at hchain
    obtain ⟨hlt, hchain'⟩ := hchain
    have hstep : debounceStep (some (t + 500, text), fired) (t', text') =
        (some (t' + 500, text'), fired) := by
      simp only [debounceStep]
      rw [if_neg (by omega)]
    rw [List.foldl_cons, hstep, ih t' text' fired hchain']
    cases rest' <;> simp [List.getLastD]

/-! ### Further bridge lemmas -/

theorem unvisitedCount_empty_le (cache : Cache) :
    unvisitedCount cache ∅ ≤ cache.length := by
  unfold unvisitedCount
  rw [Finset.sdiff_empty]
  calc (cacheKeys cache).toFinset.card ≤ (cacheKeys cache).length :=
        List.toFinset_card_le _
    _ = cache.length := List.length_map _ _

theorem not_mem_keys_of_cacheLookup_none {cache : Cache} {d : Nat}
    (h : cacheLookup cache d = none) : d ∉ cacheKeys cache := by
  intro hm
  obtain ⟨p, hp, hfst⟩ := List.mem_map.1 hm
  have hex : ∃ x ∈ cache.reverse, (fun q => q.1 == d) x := by
    refine ⟨p, List.mem_reverse.2 hp, ?_⟩
    simp [hfst]
  have := List.find?_isSome.2 hex
  unfold cacheLookup at h
  rw [Option.map_eq_none'] at h
  rw [h] at this
  cases this

theorem startsInjective_of_pairwise {tokens : List LToken}
    (h : tokens.Pairwise (fun a b => a.start ≠ b.start)) : StartsInjective tokens := by
  intro j1 j2 t1 t2 h1 h2 hstart
  by_contra hne
  rcases List.getElem?_eq_some.1 h1 with ⟨hl1, he1⟩
  rcases List.getElem?_eq_some.1 h2 with ⟨hl2, he2⟩
  rw [List.pairwise_iff_getElem] at h
  rcases Nat.lt_or_ge j1 j2 with hlt | hge
  · exact h j1 j2 hl1 hl2 hlt (by rw [he1, he2]; exact hstart)
  · have hlt2 : j2 < j1 := Nat.lt_of_le_of_ne hge (fun he => hne he.symm)
    exact h j2 j1 hl2 hl1 hlt2 (by rw [he1, he2]; exact hstart.symm)

/-- Characterization of one occurrence inside a traversal: with enough
fuel, a lookup of `id` from visited-state `v` returns JavaScript `null`
exactly when `id` was already visited anywhere earlier in this traversal
or is absent from the cache. -/
theorem resolveNodeF_none_iff (fuel : Nat) (cache : Cache) (id : Nat) (v : Finset Nat)
    (h : unvisitedCount cache v < fuel) :
    ∃ r v', resolveNodeF fuel cache id v = some (r, v') ∧
      (r = none ↔ (id ∈ v ∨ cacheLookup cache id = none)) := by
  obtain ⟨p, hp⟩ := Option.isSome_iff_exists.1 (resolveNodeF_isSome fuel cache id v h)
  obtain ⟨r, v'⟩ := p
  refine ⟨r, v', hp, ?_⟩
  cases fuel with
  | zero => cases hp
  | succ fuel =>
    simp only [resolveNodeF] at hp
    by_cases hid : id ∈ v
    · rw [if_pos hid] at hp
      cases hp
      simp [hid]
    · rw [if_neg hid] at hp
      cases hl : cacheLookup cache id with
      | none =>
        simp only [hl] at hp
        cases hp
        simp [hid, hl]
      | some node =>
        simp only [hl] at hp
        split at hp
        · exact Option.noConfusion hp
        · cases hp
          simp [hid, hl]

/-! ### The claims -/

/-- C1: for every node cache and starting id — including caches whose
child references form a self-referential or mutually-cyclic chain —
resolution terminates: fuel `cache.length + 1` always suffices for
`resolveNodeF` (the recursion is bounded and never throws), and on the
self-loop and two-node-cycle caches the cyclic child edge is simply
omitted from the resolved tree. -/
theorem resolve_terminates_on_cycles :
    (∀ (cache : Cache) (nodeId : Nat),
      (resolveNodeF (cache.length + 1) cache nodeId ∅).isSome) ∧
    resolveNode selfRefCache 1 = some (.mk 1 "Loop" none (some ⟨0, 4⟩) []) ∧
    resolveNode mutualCycleCache 1 =
      some (.mk 1 "A" none (some ⟨0, 9⟩)
        [.mk 2 "B" (some "child") (some ⟨2, 7⟩) []]) := by
  refine ⟨fun cache nodeId => resolveNodeF_isSome _ _ _ _ ?_, rfl, rfl⟩
  exact Nat.lt_succ_of_le (unvisitedCount_empty_le cache)

/-- C2: along every `handleCompile` pass, each observable state either
still shows the previous result, or shows the new result with both caches
already rebuilt from exactly the `NodeStore`s present on it — there is no
state where the new result is visible with a stale or missing cache. -/
theorem compile_publishes_caches_before_result :
    ∀ (s0 : UIState) (outcome : Except String CompResult) (s : UIState),
      s ∈ handleCompileStates s0 outcome →
      s.result = s0.result ∨
      ∃ res, s.result = some res ∧
        (∀ ns, res.surfaceNodeStore = some ns → s.surfaceCache = buildCache ns) ∧
        (∀ ns, res.loweredNodeStore = some ns → s.loweredCache = buildCache ns) := by
  intro s0 outcome s hs
  cases outcome with
  | ok res =>
    simp only [handleCompileStates, List.mem_cons, List.not_mem_nil, or_false] at hs
    rcases hs with rfl | rfl | rfl
    · exact Or.inl rfl
    · exact Or.inl rfl
    · refine Or.inr ⟨res, rfl, fun ns hns => ?_, fun ns hns => ?_⟩ <;> simp [hns]
  | error e =>
    simp only [handleCompileStates, List.mem_cons, List.not_mem_nil, or_false] at hs
    subst hs
    refine Or.inr ⟨⟨false, none, none, some e⟩, rfl, ?_, ?_⟩ <;>
      exact fun ns hns => Option.noConfusion hns

/-- Witness for C2 at a concrete pass: initial state with a stale result,
a successful outcome carrying one surface store; the published state shows
the new result with the surface cache rebuilt. -/
theorem compile_publishes_caches_before_result_witness :
    (⟨[(1, ⟨1, "K", some ⟨0, 3⟩, []⟩)], [],
        some ⟨true, some ⟨[1], [(1, ⟨1, "K", some ⟨0, 3⟩, []⟩)]⟩, none, none⟩⟩ : UIState).result =
      (⟨[(7, ⟨7, "Old", none, []⟩)], [(7, ⟨7, "Old", none, []⟩)],
        some ⟨false, none, none, some "old error"⟩⟩ : UIState).result ∨
    ∃ res,
      (⟨[(1, ⟨1, "K", some ⟨0, 3⟩, []⟩)], [],
        some ⟨true, some ⟨[1], [(1, ⟨1, "K", some ⟨0, 3⟩, []⟩)]⟩, none, none⟩⟩ : UIState).result =
          some res ∧
      (∀ ns, res.surfaceNodeStore = some ns →
        (⟨[(1, ⟨1, "K", some ⟨0, 3⟩, []⟩)], [],
          some ⟨true, some ⟨[1], [(1, ⟨1, "K", some ⟨0, 3⟩, []⟩)]⟩, none, none⟩⟩ : UIState).surfaceCache =
            buildCache ns) ∧
      (∀ ns, res.loweredNodeStore = some ns →
        (⟨[(1, ⟨1, "K", some ⟨0, 3⟩, []⟩)], [],
          some ⟨true, some ⟨[1], [(1, ⟨1, "K", some ⟨0, 3⟩, []⟩)]⟩, none, none⟩⟩ : UIState).loweredCache =
            buildCache ns) :=
  compile_publishes_caches_before_result
    ⟨[(7, ⟨7, "Old", none, []⟩)], [(7, ⟨7, "Old", none, []⟩)],
      some ⟨false, none, none, some "old error"⟩⟩
    (.ok ⟨true, some ⟨[1], [(1, ⟨1, "K", some ⟨0, 3⟩, []⟩)]⟩, none, none⟩)
    ⟨[(1, ⟨1, "K", some ⟨0, 3⟩, []⟩)], [],
      some ⟨true, some ⟨[1], [(1, ⟨1, "K", some ⟨0, 3⟩, []⟩)]⟩, none, none⟩⟩
    (by decide)

/-- C3 counterexample: on the spec's own example tree, at offset 25 the
code returns A itself — B's span [10,20] does not contain 25 — so the
claimed value `B` is false at this concrete input. -/
theorem findNode_offset25_returns_A_not_B :
    findNodeAtPosition exTreeA 25 = some exTreeA ∧
    findNodeAtPosition exTreeA 25 ≠ some exTreeB := by
  have h : findNodeAtPosition exTreeA 25 = some exTreeA := by
    simp [exTreeA, exTreeB, exTreeC, findNodeAtPosition, findFirstChild, spanContainsB]
  refine ⟨h, ?_⟩
  rw [h]
  intro heq
  have h2 := Option.some.inj heq
  simp [exTreeA, exTreeB, exTreeC, ResolvedNode.mk.injEq] at h2

/-- C3 (amended): `findNodeAtPosition` matches a node exactly when its own
span contains the offset, as a closed interval on both ends (so
`span.start` and `span.end` both match); the returned node is the deepest
match — its span contains the offset and none of its children match;
sibling ties go to the first child in encounter order; and on the spec's
example tree the result is C at 13, A (not B) at 25, and null at 60. -/
theorem findNode_deepest_inclusive_spec :
    (∀ (n : ResolvedNode) (offset : Nat),
      (findNodeAtPosition n offset).isSome = spanContainsB n.span offset) ∧
    (∀ (n : ResolvedNode) (offset : Nat) (m : ResolvedNode),
      findNodeAtPosition n offset = some m →
        spanContainsB m.span offset = true ∧ findFirstChild m.children offset = none) ∧
    (∀ (n : ResolvedNode) (s e offset : Nat), n.span = some ⟨s, e⟩ →
      offset = s ∨ offset = e → s ≤ e → (findNodeAtPosition n offset).isSome) ∧
    (findNodeAtPosition exTreeA 13 = some exTreeC ∧
     findNodeAtPosition exTreeA 25 = some exTreeA ∧
     findNodeAtPosition exTreeA 60 = none) ∧
    findNodeAtPosition tieParent 15 = some tieB1 := by
  refine ⟨findNodeAtPosition_isSome, ?_, ?_, ⟨?_, ?_, ?_⟩, ?_⟩
  · intro n offset m h
    exact findNodeAtPosition_spec_aux (sizeOf n) n le_rfl offset m h
  · intro n s e offset hspan hoff hse
    rw [findNodeAtPosition_isSome, hspan]
    rcases hoff with rfl | rfl <;> simp [spanContainsB, hse]
  · simp [exTreeA, exTreeB, exTreeC, findNodeAtPosition, findFirstChild, spanContainsB]
  · simp [exTreeA, exTreeB, exTreeC, findNodeAtPosition, findFirstChild, spanContainsB]
  · simp [exTreeA, exTreeB, exTreeC, findNodeAtPosition, findFirstChild, spanContainsB]
  · simp [tieParent, tieB1, tieB2, findNodeAtPosition, findFirstChild, spanContainsB]

/-- Witness for C3 (amended): the deepest-match characterization applied
to the concrete hit at offset 13, and boundary inclusivity applied to B's
exact span ends. -/
theorem findNode_deepest_inclusive_spec_witness :
    (spanContainsB exTreeC.span 13 = true ∧ findFirstChild exTreeC.children 13 = none) ∧
    (findNodeAtPosition exTreeB 10).isSome ∧ (findNodeAtPosition exTreeB 20).isSome :=
  ⟨findNode_deepest_inclusive_spec.2.1 exTreeA 13 exTreeC
      (by simp [exTreeA, exTreeB, exTreeC, findNodeAtPosition, findFirstChild, spanContainsB]),
   findNode_deepest_inclusive_spec.2.2.1 exTreeB 10 20 10 rfl (Or.inl rfl) (by decide),
   findNode_deepest_inclusive_spec.2.2.1 exTreeB 10 20 20 rfl (Or.inr rfl) (by decide)⟩

/-- C4 counterexample: on the diamond cache, id 4 has NOT appeared on the
path 1 → 3 when the traversal reaches it the second time, yet it resolves
to nothing there — the code keeps one visited set for the whole traversal,
so a shared acyclic child is resolved only at its first occurrence, not at
each occurrence as claimed. -/
theorem resolve_shared_child_omitted_second_time :
    resolveNode diamondCache 1 = some diamondResolvedShared ∧
    resolveNode diamondCache 1 ≠ some diamondResolvedPerPath := by
  refine ⟨rfl, fun h => ?_⟩
  have h2 : diamondResolvedShared = diamondResolvedPerPath :=
    Option.some.inj ((rfl : resolveNode diamondCache 1 = some diamondResolvedShared).symm.trans h)
  simp [diamondResolvedShared, diamondResolvedPerPath, ResolvedNode.mk.injEq] at h2

/-- C4 (amended): during one traversal, an occurrence of `id` resolves to
nothing exactly when `id` has already been visited ANYWHERE earlier in
that same traversal (one visited set shared across the whole call) or is
absent from the cache; consequently a shared acyclic child is resolved at
its first occurrence only, as the diamond cache shows.  A fresh top-level
`resolveNode` call starts from the empty visited set, so independent calls
share no state. -/
theorem resolve_null_iff_visited_or_missing :
    (∀ (cache : Cache) (id : Nat) (v : Finset Nat) (fuel : Nat),
      unvisitedCount cache v < fuel →
      ∃ r v', resolveNodeF fuel cache id v = some (r, v') ∧
        (r = none ↔ (id ∈ v ∨ cacheLookup cache id = none))) ∧
    resolveNode diamondCache 1 = some diamondResolvedShared :=
  ⟨fun cache id v fuel h => resolveNodeF_none_iff fuel cache id v h, rfl⟩

/-- Witness for C4 (amended): the occurrence characterization evaluated on
the diamond cache at id 4 with ids 1 and 2 already visited. -/
theorem resolve_null_iff_visited_or_missing_witness :
    ∃ r v', resolveNodeF 5 diamondCache 4 {1, 2} = some (r, v') ∧
      (r = none ↔ (4 ∈ ({1, 2} : Finset Nat) ∨ cacheLookup diamondCache 4 = none)) :=
  resolve_null_iff_visited_or_missing.1 diamondCache 4 {1, 2} 5 (by decide)

/-- C5: for a nonempty burst of source-change events whose consecutive
gaps are each below the 500 ms quiet interval, exactly one compile request
is issued and it uses the text of the last event; the earlier scheduled
compiles are cancelled, not queued. -/
theorem debounce_collapses_to_last :
    ∀ (e : Nat × String) (rest : List (Nat × String)),
      List.Chain (fun a b => b.1 < a.1 + 500) e rest →
      debounceRun (e :: rest) = [(rest.getLastD e).2] := by
  intro e rest hchain
  obtain ⟨t, text⟩ := e
  unfold debounceRun
  rw [List.foldl_cons]
  have hbase : debounceStep (none, []) (t, text) = (some (t + 500, text), []) := rfl
  rw [hbase, debounceFold_within rest t text [] hchain]
  simp

/-- Witness for C5: five rapid edits 100 ms apart issue exactly one
compile, with the fifth text. -/
theorem debounce_collapses_to_last_witness :
    debounceRun [(0, "a"), (100, "b"), (200, "c"), (300, "d"), (400, "e")] = ["e"] :=
  debounce_collapses_to_last (0, "a") [(100, "b"), (200, "c"), (300, "d"), (400, "e")]
    (List.Chain.cons (by decide) (List.Chain.cons (by decide)
      (List.Chain.cons (by decide) (List.Chain.cons (by decide) List.Chain.nil))))

/-- C6: when only the closing bracket token carries `mate` (the byte
offset of its opening token) and all token start offsets are distinct, the
LexerView post-processing leaves the closing token's `mate` in place and
gives the opening token `mate = closing.span.start` — the mate relation
becomes symmetric in both directions. -/
theorem lexer_mate_completion_symmetric :
    ∀ (tokens : List LToken) (o c : Nat) (tO tC : LToken),
      tokens.Pairwise (fun a b => a.start ≠ b.start) →
      tokens[o]? = some tO → tokens[c]? = some tC → o ≠ c →
      tC.mate = some tO.start →
      (∀ p ∈ tokens.enum, p.1 ≠ c → (p.2 : LToken).mate = none) →
      (lexerProcessTokens tokens)[o]? = some { tO with mate := some tC.start } ∧
      (lexerProcessTokens tokens)[c]? = some tC := by
  intro tokens o c tO tC hpair ho hc hoc hmate honlyE
  have hinj := startsInjective_of_pairwise hpair
  have honly : ∀ j t, tokens[j]? = some t → j ≠ c → t.mate = none := fun j t hj hjc =>
    honlyE (j, t) (List.mk_mem_enum_iff_getElem?.2 hj) hjc
  have hclen : c < tokens.length := (List.getElem?_eq_some.1 hc).1
  obtain ⟨g2, g4⟩ := mateFold_spec tokens o c tO tC hinj ho hc hoc hmate honly
    (List.range tokens.length) tokens (fun j _ _ => rfl) hc (Or.inl ho)
  exact ⟨g4 (Or.inl (List.mem_range.2 hclen)), g2⟩

/-- Witness for C6: `(` at offset 0 and `)` at offset 4 with only the
closer carrying `mate = 0`; after processing the opener carries
`mate = 4` and the closer still carries `mate = 0`. -/
theorem lexer_mate_completion_symmetric_witness :
    (lexerProcessTokens lexExample)[0]? = some ⟨"LParen", 0, 1, some "(", some 4⟩ ∧
    (lexerProcessTokens lexExample)[2]? = some ⟨"RParen", 4, 5, some ")", some 0⟩ :=
  lexer_mate_completion_symmetric lexExample 0 2
    ⟨"LParen", 0, 1, some "(", none⟩ ⟨"RParen", 4, 5, some ")", some 0⟩
    (by decide) (by decide) (by decide) (by decide) (by decide) (by decide)

/-- C7: `computeInsertedSpans` drops end-of-input and line-comment tokens
from both sequences, then walks the formatted tokens with one cursor into
the filtered original; every reported span belongs to a formatted,
non-ignorable token satisfying the predicate and carries the given label;
a stream whose filtered `(kind, text)` sequence is unchanged reports
nothing; and on original [A, B, C] vs formatted [A, SEMI, B, C] with
predicate "is SEMI", exactly the SEMI token's span is reported and nothing
for B or C. -/
theorem inserted_spans_alignment_spec :
    (∀ (src fmt : Option (List Tok)) (pred : Tok → Bool) (cls : String) (h : HSpan),
      h ∈ computeInsertedSpans src fmt pred cls →
      ∃ f ∈ fmt.getD [], isIgnorableToken f = false ∧ pred f = true ∧
        f.span = some ⟨h.start, h.stop⟩ ∧ h.className = cls) ∧
    (∀ (src fmt : Option (List Tok)) (pred : Tok → Bool) (cls : String),
      ((src.getD []).filter (fun t => !isIgnorableToken t)).map normalizeToken =
        ((fmt.getD []).filter (fun t => !isIgnorableToken t)).map normalizeToken →
      computeInsertedSpans src fmt pred cls = []) ∧
    computeInsertedSpans (some fmtOriginal) (some fmtFormatted) isSemiTok "fmt-virtual" =
      [⟨1, 2, "fmt-virtual"⟩] := by
  refine ⟨?_, ?_, rfl⟩
  · intro src fmt pred cls h hmem
    obtain ⟨f, hf, hp⟩ := insertedLoop_mem _ _ h hmem
    rw [List.mem_filter] at hf
    exact ⟨f, hf.1, by simpa using hf.2, hp⟩
  · intro src fmt pred cls heq
    exact insertedLoop_eq_nil _ _ heq

/-- Witness for C7: the span reported on the example does come from the
SEMI token, and an unchanged stream reports nothing. -/
theorem inserted_spans_alignment_spec_witness :
    (∃ f ∈ (some fmtFormatted : Option (List Tok)).getD [], isIgnorableToken f = false ∧
      isSemiTok f = true ∧ f.span = some ⟨1, 2⟩ ∧ ("fmt-virtual" : String) = "fmt-virtual") ∧
    computeInsertedSpans (some fmtOriginal) (some fmtOriginal) isSemiTok "fmt-virtual" = [] :=
  ⟨inserted_spans_alignment_spec.1 (some fmtOriginal) (some fmtFormatted) isSemiTok
      "fmt-virtual" ⟨1, 2, "fmt-virtual"⟩ (by decide),
   inserted_spans_alignment_spec.2.1 (some fmtOriginal) (some fmtOriginal) isSemiTok
      "fmt-virtual" rfl⟩

/-- C8: a child entry whose id is absent from the cache resolves to
JavaScript `null` (so `.filter(Boolean)` silently omits it, nothing is
thrown or surfaced), and the remaining siblings resolve to exactly the
trees they would form without the dangling entry. -/
theorem resolve_dangling_child_omitted :
    (∀ (cache : Cache) (d : Nat) (v : Finset Nat) (fuel : Nat), 1 ≤ fuel →
      cacheLookup cache d = none →
      (resolveNodeF fuel cache d v).map Prod.fst = some none) ∧
    (∀ (cache : Cache) (f : String) (d : Nat) (rest : List ChildRef)
        (v : Finset Nat) (fuel : Nat), 1 ≤ fuel → cacheLookup cache d = none →
      (resolveChildrenAux (fun i w => resolveNodeF fuel cache i w)
          (⟨f, d⟩ :: rest) v).map Prod.fst =
        (resolveChildrenAux (fun i w => resolveNodeF fuel cache i w) rest v).map
          Prod.fst) ∧
    resolveNode danglingCache 1 =
      some (.mk 1 "P" none (some ⟨0, 8⟩) [.mk 2 "Q" (some "b") (some ⟨3, 6⟩) []]) := by
  refine ⟨?_, ?_, rfl⟩
  · intro cache d v fuel hfuel hl
    cases fuel with
    | zero => omega
    | succ fuel => by_cases hdv : d ∈ v <;> simp [resolveNodeF, hdv, hl]
  · intro cache f d rest v fuel hfuel hl
    cases fuel with
    | zero => omega
    | succ fuel =>
      simp only [resolveChildrenAux]
      by_cases hdv : d ∈ v
      · have hstep : resolveNodeF (fuel + 1) cache d v = some (none, v) := by
          simp [resolveNodeF, hdv]
        simp only [hstep]
        cases resolveChildrenAux (fun i w => resolveNodeF (fuel + 1) cache i w) rest v <;>
          simp
      · have hstep : resolveNodeF (fuel + 1) cache d v = some (none, insert d v) := by
          simp [resolveNodeF, hdv, hl]
        simp only [hstep]
        have hd' : d ∉ cacheKeys cache := not_mem_keys_of_cacheLookup_none hl
        rw [resolveChildrenAux_insert
          (fun i w => resolveNodeF_insert_nonkey (fuel + 1) cache d hd' i w) rest v]
        cases resolveChildrenAux (fun i w => resolveNodeF (fuel + 1) cache i w) rest v <;>
          simp

/-- Witness for C8: dropping the dangling entry `{a, 9}` from node 1's
child list of the concrete cache leaves the resolved sibling list
unchanged. -/
theorem resolve_dangling_child_omitted_witness :
    (resolveChildrenAux (fun i w => resolveNodeF 3 danglingCache i w)
        [⟨"a", 9⟩, ⟨"b", 2⟩] ∅).map Prod.fst =
      (resolveChildrenAux (fun i w => resolveNodeF 3 danglingCache i w)
        [⟨"b", 2⟩] ∅).map Prod.fst :=
  resolve_dangling_child_omitted.2.1 danglingCache "a" 9 [⟨"b", 2⟩] ∅ 3
    (by decide) (by decide)

/-- C9 counterexample: a parsed backend payload `{"error": "boom"}` (no
`success` key) is spread onto `{ success: true }`, producing a result with
BOTH `success === true` and `error` set — the exactly-one alternative
fails on this input. -/
theorem compileWorkman_payload_error_both_set :
    (compileWorkmanResult (.parsed (some ⟨false, false, some "boom", none, none⟩))).success =
      true ∧
    (compileWorkmanResult (.parsed (some ⟨false, false, some "boom", none, none⟩))).error =
      some "boom" ∧
    ¬ ExactlyOneOutcome
      (compileWorkmanResult (.parsed (some ⟨false, false, some "boom", none, none⟩))) :=
  ⟨rfl, rfl, by decide⟩

/-- C9 (amended): every failure path of either transport binding
(instantiation failure, empty output, JSON parse failure, non-object body,
explicit `success: false`) yields `success: false` with `error` set, and a
parsed payload that does not itself carry a conflicting success/error
combination yields exactly one of `success === true` or `error` set; a
payload carrying its own contradictory fields is passed through by the
object spread and can violate the discipline. -/
theorem compileWorkman_exactly_one_when_payload_consistent :
    (∀ run : WasmRun, (∀ d, run = .parsed (some d) → PayloadConsistent d) →
      ExactlyOneOutcome (compileWorkmanResult run)) ∧
    (∀ (ok : Bool) (status : Nat) (body : ServerBody) (r : CompResult),
      compileWorkmanServerResult ok status body = .ok r →
      (∀ d, body = .objNoSuccess d → PayloadConsistent d) →
      (∀ b df eF d, body = .objWithSuccess b df eF → df = some d → PayloadConsistent d) →
      ExactlyOneOutcome r) := by
  have hspread : ∀ d, PayloadConsistent d → ExactlyOneOutcome (spreadSuccessTrue d) := by
    intro d hd
    rcases hd with ⟨he, hs⟩ | ⟨he, hhs, hsv⟩
    · cases hh : d.hasSuccess
      · exact Or.inl ⟨by simp [spreadSuccessTrue, hh], by simp [spreadSuccessTrue, he]⟩
      · exact Or.inl ⟨by simp [spreadSuccessTrue, hh, hs hh], by simp [spreadSuccessTrue, he]⟩
    · exact Or.inr ⟨by simp [spreadSuccessTrue, hhs, hsv], by simp [spreadSuccessTrue, he]⟩
  constructor
  · intro run hcons
    cases run with
    | startFailure m => exact Or.inr ⟨rfl, rfl⟩
    | emptyOutput st => cases st <;> exact Or.inr ⟨rfl, rfl⟩
    | parseFailure m ex => exact Or.inr ⟨rfl, rfl⟩
    | parsed d =>
      cases d with
      | none => exact Or.inl ⟨rfl, rfl⟩
      | some d => exact hspread d (hcons d rfl)
  · intro ok status body r hr h1 h2
    cases ok with
    | false => cases hr
    | true =>
      simp only [compileWorkmanServerResult, Bool.not_true, Bool.false_eq_true,
        if_false] at hr
      cases body with
      | notJson m ex => cases hr; exact Or.inr ⟨rfl, rfl⟩
      | nonObject => cases hr; exact Or.inr ⟨rfl, rfl⟩
      | objWithSuccess b df eF =>
        cases b with
        | false => cases hr; exact Or.inr ⟨rfl, rfl⟩
        | true =>
          cases hr
          cases df with
          | none => exact Or.inl ⟨rfl, rfl⟩
          | some d => exact hspread d (h2 true (some d) eF d rfl rfl)
      | objNoSuccess p => cases hr; exact hspread p (h1 p rfl)

/-- Witness for C9 (amended): a wasm start failure and a non-object HTTP
body both land on the failure side of the exactly-one split. -/
theorem compileWorkman_exactly_one_when_payload_consistent_witness :
    ExactlyOneOutcome (compileWorkmanResult (.startFailure "wasm trap")) ∧
    ExactlyOneOutcome ⟨false, none, none, some "Invalid response from compiler"⟩ :=
  ⟨compileWorkman_exactly_one_when_payload_consistent.1 (.startFailure "wasm trap")
      (fun _ h => nomatch h),
   compileWorkman_exactly_one_when_payload_consistent.2 true 200 .nonObject
      ⟨false, none, none, some "Invalid response from compiler"⟩ rfl
      (fun _ h => nomatch h) (fun _ _ _ _ h _ => nomatch h)⟩

/-- C10: for a well-formed cache (each node stored under its own id — the
shape the orchestrator builds from the wire `nodes` object keyed by node
id), one top-level `resolveNode` call — one shared visited set across the
whole traversal — never emits the same id twice, so the resolved tree has
at most as many nodes as the cache has entries.  The embedding is a pure
function of the cache, which is passed read-only and never mutated. -/
theorem resolve_output_ids_nodup_and_bounded :
    ∀ (cache : Cache), CacheWF cache →
      ∀ (nodeId : Nat) (t : ResolvedNode), resolveNode cache nodeId = some t →
        t.ids.Nodup ∧ t.ids.length ≤ cache.length := by
  intro cache hwf nodeId t h
  unfold resolveNode at h
  cases hF : resolveNodeF (cache.length + 1) cache nodeId ∅ with
  | none => rw [hF] at h; cases h
  | some p =>
    obtain ⟨r, v'⟩ := p
    rw [hF] at h
    simp only [Option.map_some', Option.getD_some] at h
    obtain ⟨hnodup, hmem⟩ := resolveNodeF_ids hwf (cache.length + 1) nodeId ∅ t v' (h ▸ hF)
    refine ⟨hnodup, ?_⟩
    calc t.ids.length = t.ids.toFinset.card := (List.toFinset_card_of_nodup hnodup).symm
      _ ≤ (cacheKeys cache).toFinset.card :=
          Finset.card_le_card (fun x hx => (hmem x (List.mem_toFinset.1 hx)).2.2)
      _ ≤ (cacheKeys cache).length := List.toFinset_card_le _
      _ = cache.length := List.length_map _ _

/-- Witness for C10 on the diamond cache: the resolved tree's ids are
1, 2, 4, 3 — no duplicates, and 4 ≤ 4 cache entries. -/
theorem resolve_output_ids_nodup_and_bounded_witness :
    diamondResolvedShared.ids.Nodup ∧
    diamondResolvedShared.ids.length ≤ diamondCache.length :=
  resolve_output_ids_nodup_and_bounded diamondCache (by decide) 1 diamondResolvedShared rfl
